import Mathlib

set_option linter.unusedVariables false

/-!
Verification development for the vulcan-pkg-tool repository (Go).

Each Go package that the checked claims touch is embedded shallowly:
pure functions become Lean functions, the mutex-guarded mutable
structures become explicit state passing, Go panics become `none`
(or an explicit `fault` result), returned Go errors become an error
constructor, and Go machine integers become `Nat`/`Int` with explicit
wrap-around (`% 2^32`, `% 2^64`) where the Go code can overflow.

Sections, in dependency order:
  * `bitmap`   — bitmap/bitmap.go
  * `bloom`    — bloom/bloom.go and the int64 bloom filter
  * `strmap`   — concurrentmap/strmap/map.go
  * `idc`      — the id codec package (CombineZoneId/SplitId/EncodeId/DecodeId)
  * `aesc`     — security/aes/aes.go
  * `ch`       — consistenthash/int64_ketama.go
  * `stopper`  — sync/stopper.go
-/

/-! ## bitmap/bitmap.go

`Bitmap` packs `size` bits into `ceil(size/8)` bytes.  The Go struct
carries a mutex; every operation takes and releases it, so the
sequential state-passing embedding below is faithful.  `validateIndex`
panics on an out-of-range index, which the embedding renders as `none`.
Go `int` is embedded as `Int`; after the non-negativity guard the index
is converted to `Nat`, where Go's `/` and `%` agree with `Nat` division.
-/

namespace bitmap

/-- One byte of the backing array, as a `Nat` (always `< 256` in reachable
states; the bit-level lemmas do not need that bound). -/
abbrev Byte := Nat

structure Bitmap where
  bits : List Byte
  size : Int
deriving DecidableEq, Repr

/-- `make([]byte, (size+7)/8)` length, for the non-negative sizes that pass
the constructor guard. -/
def byteLen (size : Int) : Nat := (size.toNat + 7) / 8

/-- `NewBitmap`: `size < 0` panics (`none`); otherwise an all-zero array of
`(size+7)/8` bytes. -/
def NewBitmap (size : Int) : Option Bitmap :=
  if size < 0 then none
  else some { bits := List.replicate (byteLen size) 0, size := size }

/-- `validateIndex`: panic (modelled by the callers returning `none`) iff
`index < 0 || index >= b.size`. -/
def badIndex (b : Bitmap) (index : Int) : Prop :=
  index < 0 ∨ b.size ≤ index

instance (b : Bitmap) (index : Int) : Decidable (badIndex b index) := by
  unfold badIndex; infer_instance

/-- `Set`: `b.bits[index/8] |= 1 << (index % 8)`. -/
def Set (b : Bitmap) (index : Int) : Option Bitmap :=
  if badIndex b index then none
  else
    let i := index.toNat
    some { b with bits := b.bits.set (i / 8) (b.bits.getD (i / 8) 0 ||| (1 <<< (i % 8))) }

/-- `Clear`: `b.bits[index/8] &^= 1 << (index % 8)`; on a Go byte
`x &^ m = x & (0xFF ^ m)`. -/
def Clear (b : Bitmap) (index : Int) : Option Bitmap :=
  if badIndex b index then none
  else
    let i := index.toNat
    some { b with bits := b.bits.set (i / 8) (b.bits.getD (i / 8) 0 &&& (255 ^^^ (1 <<< (i % 8)))) }

/-- `IsSet`: `b.bits[index/8] & (1 << (index % 8)) != 0`. -/
def IsSet (b : Bitmap) (index : Int) : Option Bool :=
  if badIndex b index then none
  else
    let i := index.toNat
    some (b.bits.getD (i / 8) 0 &&& (1 <<< (i % 8)) != 0)

/-- `MSet` sets every index in turn.  (The Go body acquires the mutex and
then calls `b.Set`, which acquires the same non-reentrant mutex again, so
the real `MSet` self-deadlocks on any non-empty argument; this embedding
keeps the functional content of the loop, and the deadlock is reported
with the claim it decides.) -/
def MSet (b : Bitmap) (indexes : List Int) : Option Bitmap :=
  indexes.foldlM Set b

/-- Well-formedness: the backing array has the constructed length and the
size is non-negative (true of every bitmap `NewBitmap` returns, and
preserved by `Set`/`Clear`). -/
def WF (b : Bitmap) : Prop :=
  b.bits.length = byteLen b.size ∧ 0 ≤ b.size

instance (b : Bitmap) : Decidable (WF b) := by
  unfold WF; infer_instance

/-- Specification-level observation of one bit (total, for lemma reuse). -/
def bitAt (b : Bitmap) (j : Nat) : Bool :=
  (b.bits.getD (j / 8) 0).testBit (j % 8)

theorem and_shift_ne_zero (x k : Nat) :
    (x &&& (1 <<< k) != 0) = x.testBit k := by
  rw [Nat.one_shiftLeft, Nat.and_two_pow]
  cases h : x.testBit k
  · simp [h]
  · simp only [h, Bool.toNat_true, one_mul, bne_iff_ne, ne_eq]
    simp [Nat.pos_of_ne_zero, pow_eq_zero_iff]

theorem div8_lt_byteLen {i s : Nat} (h : i < s) : i / 8 < (s + 7) / 8 :=
  calc i / 8 < i / 8 + 1 := Nat.lt_succ_self _
    _ = (i + 8) / 8 := (Nat.add_div_right i (by norm_num)).symm
    _ ≤ (s + 7) / 8 := Nat.div_le_div_right (by omega)

theorem IsSet_eq_bitAt {b : Bitmap} {index : Int}
    (h0 : 0 ≤ index) (hs : index < b.size) :
    IsSet b index = some (bitAt b index.toNat) := by
  unfold IsSet bitAt
  rw [if_neg (by unfold badIndex; omega)]
  simp [and_shift_ne_zero]

theorem NewBitmap_eq {size : Int} (h : 0 ≤ size) :
    ∃ b, NewBitmap size = some b ∧ WF b ∧ b.size = size ∧
      ∀ j, bitAt b j = false := by
  refine ⟨{ bits := List.replicate (byteLen size) 0, size := size },
    by unfold NewBitmap; rw [if_neg (by omega)], ⟨by simp, h⟩, rfl, ?_⟩
  intro j
  unfold bitAt
  rcases Nat.lt_or_ge (j / 8) (byteLen size) with hj | hj
  · simp [List.getD_eq_getElem?_getD, List.getElem?_replicate, hj]
  · simp [List.getD_eq_getElem?_getD, List.getElem?_replicate, Nat.not_lt.mpr hj]

theorem Set_eq {b : Bitmap} {index : Int} (hwf : WF b)
    (h0 : 0 ≤ index) (hs : index < b.size) :
    ∃ b', Set b index = some b' ∧ WF b' ∧ b'.size = b.size ∧
      ∀ j, bitAt b' j = (bitAt b j || j == index.toNat) := by
  obtain ⟨hlen, hsz⟩ := hwf
  have hi : index.toNat < b.size.toNat := by omega
  have hcell : index.toNat / 8 < b.bits.length := by
    rw [hlen]; exact div8_lt_byteLen hi
  refine ⟨⟨b.bits.set (index.toNat / 8) (b.bits.getD (index.toNat / 8) 0 ||| (1 <<< (index.toNat % 8))), b.size⟩,
    ?_, ⟨by simpa using hlen, hsz⟩, rfl, ?_⟩
  · unfold Set
    rw [if_neg (by unfold badIndex; omega)]
  · intro j
    unfold bitAt
    simp only [List.getD_eq_getElem?_getD]
    rcases eq_or_ne (j / 8) (index.toNat / 8) with hc | hc
    · rw [hc, List.getElem?_set_self (by omega)]
      simp only [Option.getD_some, List.getD_eq_getElem?_getD]
      rw [Nat.one_shiftLeft, Nat.testBit_or, Nat.testBit_two_pow]
      rcases eq_or_ne j index.toNat with rfl | hne
      · simp
      · have : ¬ (index.toNat % 8 = j % 8) := by omega
        simp [this, hne]
    · rw [List.getElem?_set_ne (by omega)]
      have hne : j ≠ index.toNat := by
        intro h; exact hc (by rw [h])
      simp [hne]

theorem Clear_eq {b : Bitmap} {index : Int} (hwf : WF b)
    (h0 : 0 ≤ index) (hs : index < b.size) :
    ∃ b', Clear b index = some b' ∧ WF b' ∧ b'.size = b.size ∧
      ∀ j, bitAt b' j = (bitAt b j && !(j == index.toNat)) := by
  obtain ⟨hlen, hsz⟩ := hwf
  have hi : index.toNat < b.size.toNat := by omega
  have hcell : index.toNat / 8 < b.bits.length := by
    rw [hlen]; exact div8_lt_byteLen hi
  refine ⟨⟨b.bits.set (index.toNat / 8) (b.bits.getD (index.toNat / 8) 0 &&& (255 ^^^ (1 <<< (index.toNat % 8)))), b.size⟩,
    ?_, ⟨by simpa using hlen, hsz⟩, rfl, ?_⟩
  · unfold Clear
    rw [if_neg (by unfold badIndex; omega)]
  · intro j
    unfold bitAt
    simp only [List.getD_eq_getElem?_getD]
    rcases eq_or_ne (j / 8) (index.toNat / 8) with hc | hc
    · rw [hc, List.getElem?_set_self (by omega)]
      simp only [Option.getD_some, List.getD_eq_getElem?_getD]
      rw [Nat.one_shiftLeft, Nat.testBit_and, Nat.testBit_xor, Nat.testBit_two_pow]
      have h255 : (255 : Nat).testBit (j % 8) = true := by
        have h8 : (255 : Nat) = 2 ^ 8 - 1 := by norm_num
        rw [h8, Nat.testBit_two_pow_sub_one]
        have : j % 8 < 8 := Nat.mod_lt _ (by norm_num)
        simpa using this
      rw [h255]
      rcases eq_or_ne j index.toNat with rfl | hne
      · simp
      · have : ¬ (index.toNat % 8 = j % 8) := by omega
        simp [this, hne]
    · rw [List.getElem?_set_ne (by omega)]
      have hne : j ≠ index.toNat := by
        intro h; exact hc (by rw [h])
      simp [hne]

end bitmap

/-- C10: a bitmap constructed with `size ≥ 0` has every in-range bit clear;
`Set i` makes `IsSet i` true, a subsequent `Clear i` makes it false again,
and both operations leave every other in-range bit unchanged; construction
with negative size is a fatal contract violation (panic, embedded as
`none`). -/
theorem claim_C10_bitmap_single_bit_ops (size i : Int) (hsize : 0 ≤ size)
    (h0 : 0 ≤ i) (hi : i < size) :
    (∀ s : Int, s < 0 → bitmap.NewBitmap s = none) ∧
    ∃ b0 b1 b2,
      bitmap.NewBitmap size = some b0 ∧
      bitmap.IsSet b0 i = some false ∧
      bitmap.Set b0 i = some b1 ∧
      bitmap.IsSet b1 i = some true ∧
      (∀ j : Int, 0 ≤ j → j < size → j ≠ i → bitmap.IsSet b1 j = bitmap.IsSet b0 j) ∧
      bitmap.Clear b1 i = some b2 ∧
      bitmap.IsSet b2 i = some false ∧
      (∀ j : Int, 0 ≤ j → j < size → j ≠ i → bitmap.IsSet b2 j = bitmap.IsSet b1 j) := by
  constructor
  · intro s hs
    unfold bitmap.NewBitmap
    rw [if_pos hs]
  obtain ⟨b0, hnew, hwf0, hb0sz, hbit0⟩ := bitmap.NewBitmap_eq hsize
  have hi0 : i < b0.size := by omega
  obtain ⟨b1, hset, hwf1, hb1sz, hbit1⟩ := bitmap.Set_eq hwf0 h0 hi0
  have hi1 : i < b1.size := by omega
  obtain ⟨b2, hclr, hwf2, hb2sz, hbit2⟩ := bitmap.Clear_eq hwf1 h0 hi1
  refine ⟨b0, b1, b2, hnew, ?_, hset, ?_, ?_, hclr, ?_, ?_⟩
  · rw [bitmap.IsSet_eq_bitAt h0 hi0, hbit0]
  · rw [bitmap.IsSet_eq_bitAt h0 hi1, hbit1, hbit0]
    simp
  · intro j hj0 hjs hji
    have hjne : j.toNat ≠ i.toNat := by omega
    rw [bitmap.IsSet_eq_bitAt hj0 (by omega), bitmap.IsSet_eq_bitAt hj0 (by omega),
      hbit1]
    simp [hjne]
  · rw [bitmap.IsSet_eq_bitAt h0 (by omega), hbit2]
    simp
  · intro j hj0 hjs hji
    have hjne : j.toNat ≠ i.toNat := by omega
    rw [bitmap.IsSet_eq_bitAt hj0 (by omega), bitmap.IsSet_eq_bitAt hj0 (by omega),
      hbit2]
    simp [hjne]

/-- Witness for C10 at size 8, bit 3. -/
theorem claim_C10_bitmap_single_bit_ops_witness :
    (∀ s : Int, s < 0 → bitmap.NewBitmap s = none) ∧
    ∃ b0 b1 b2,
      bitmap.NewBitmap 8 = some b0 ∧
      bitmap.IsSet b0 3 = some false ∧
      bitmap.Set b0 3 = some b1 ∧
      bitmap.IsSet b1 3 = some true ∧
      (∀ j : Int, 0 ≤ j → j < 8 → j ≠ 3 → bitmap.IsSet b1 j = bitmap.IsSet b0 j) ∧
      bitmap.Clear b1 3 = some b2 ∧
      bitmap.IsSet b2 3 = some false ∧
      (∀ j : Int, 0 ≤ j → j < 8 → j ≠ 3 → bitmap.IsSet b2 j = bitmap.IsSet b1 j) :=
  claim_C10_bitmap_single_bit_ops 8 3 (by norm_num) (by norm_num) (by norm_num)

/-! ## bloom/bloom.go and the int64 bloom filter

`New(n, p)` derives `m` (bit count) and `k` (hash count, clamped to 8)
from the expected element count and false-positive rate with
floating-point `estimateParameters`; the floats are not embedded, so the
constructors below take the derived pair `(m, k)` directly — every
filter the Go constructor can build is `New m k` for some `m ≥ 1`,
`1 ≤ k ≤ 8` (for `n ≥ 1` and `p ∈ (0,1)` the ceilings are positive).
The two 32-bit base hashes are `fnv.New32a` (FNV-1a) and `fnv.New32`
(FNV-1), embedded exactly; all `uint32` arithmetic wraps `% 2^32`. -/

/-- Two's-complement bit pattern of a Go `int64` value, as a `Nat < 2^64`
(`uint64(x)` in Go). -/
def uint64Of (x : Int) : Nat := (Int.emod x (2 ^ 64)).toNat

namespace bloom

/-- FNV-1a, `hash/fnv.New32a`: `h = (h XOR c) * 16777619` per byte. -/
def fnv32a (data : List Nat) : Nat :=
  data.foldl (fun h c => ((h ^^^ c) * 16777619) % 2 ^ 32) 2166136261

/-- FNV-1, `hash/fnv.New32`: `h = (h * 16777619) XOR c` per byte. -/
def fnv32 (data : List Nat) : Nat :=
  data.foldl (fun h c => ((h * 16777619) % 2 ^ 32) ^^^ c) 2166136261

/-- `createHashFunctions`: hash `i` is `base[i mod 2](data) * (i/2 + 1)`
in `uint32` arithmetic, with `base = [fnv32a, fnv32]`. -/
def createHashFunctions (k : Nat) : List (List Nat → Nat) :=
  (List.range k).map (fun i =>
    fun data => (([fnv32a, fnv32].getD (i % 2) (fun _ => 0)) data * (i / 2 + 1)) % 2 ^ 32)

structure BloomFilter where
  bitmap : bitmap.Bitmap
  hashFunc : List (List Nat → Nat)
  size : Nat

/-- `New`, taking the `estimateParameters` output `(m, k)` (post-clamp)
directly; the bitmap has `int(m)` bits. -/
def New (m k : Nat) : Option BloomFilter :=
  (bitmap.NewBitmap (m : Int)).map
    (fun bm => { bitmap := bm, hashFunc := createHashFunctions k, size := m })

/-- Loop body shared by `Add` of both filters: for each hash function,
set bit `fn(data) mod size`. -/
def setIndexes {α : Type} (bm : bitmap.Bitmap) (m : Nat) (d : α)
    (fns : List (α → Nat)) : Option bitmap.Bitmap :=
  match fns with
  | [] => some bm
  | fn :: rest => (bitmap.Set bm ((fn d % m : Nat) : Int)).bind
      (fun bm' => setIndexes bm' m d rest)

/-- Loop body shared by `Contains` of both filters: all `k` bits set. -/
def checkIndexes {α : Type} (bm : bitmap.Bitmap) (m : Nat) (d : α)
    (fns : List (α → Nat)) : Option Bool :=
  match fns with
  | [] => some true
  | fn :: rest => (bitmap.IsSet bm ((fn d % m : Nat) : Int)).bind
      (fun bit => if bit then checkIndexes bm m d rest else some false)

/-- `Add`. -/
def Add (bf : BloomFilter) (d : List Nat) : Option BloomFilter :=
  (setIndexes bf.bitmap bf.size d bf.hashFunc).map (fun bm => { bf with bitmap := bm })

/-- `Contains`. -/
def Contains (bf : BloomFilter) (d : List Nat) : Option Bool :=
  checkIndexes bf.bitmap bf.size d bf.hashFunc

/-- A sequence of `Add` calls (claim-level helper). -/
def AddAll (bf : BloomFilter) (ds : List (List Nat)) : Option BloomFilter :=
  ds.foldlM Add bf

/-- Invariant tying a filter's fields together: the bitmap is well formed,
has exactly `size` bits, and `size` is positive (as produced by `New` with
`m ≥ 1`). -/
def Inv (bf : BloomFilter) : Prop :=
  bitmap.WF bf.bitmap ∧ bf.bitmap.size = (bf.size : Int) ∧ 0 < bf.size

theorem setIndexes_eq {α : Type} {bm : bitmap.Bitmap} {m : Nat} {d : α}
    (fns : List (α → Nat)) (hwf : bitmap.WF bm) (hsz : bm.size = (m : Int))
    (hm : 0 < m) :
    ∃ bm', setIndexes bm m d fns = some bm' ∧ bitmap.WF bm' ∧
      bm'.size = bm.size ∧
      ∀ j, bitmap.bitAt bm' j =
        (bitmap.bitAt bm j || fns.any (fun fn => j == fn d % m)) := by
  induction fns generalizing bm with
  | nil => exact ⟨bm, rfl, hwf, rfl, by simp⟩
  | cons fn rest ih =>
    have hidx0 : (0 : Int) ≤ ((fn d % m : Nat) : Int) := by positivity
    have hidxs : ((fn d % m : Nat) : Int) < bm.size := by
      rw [hsz]
      exact_mod_cast Nat.mod_lt _ hm
    obtain ⟨bm1, hset, hwf1, hsz1, hbit1⟩ := bitmap.Set_eq hwf hidx0 hidxs
    obtain ⟨bm2, hrec, hwf2, hsz2, hbit2⟩ := ih hwf1 (by rw [hsz1, hsz])
    refine ⟨bm2, ?_, hwf2, by rw [hsz2, hsz1], ?_⟩
    · unfold setIndexes
      rw [hset]
      exact hrec
    · intro j
      rw [hbit2, hbit1]
      have : (((fn d % m : Nat) : Int)).toNat = fn d % m := by
        exact Int.toNat_natCast _
      rw [this]
      simp [List.any_cons, Bool.or_assoc]

theorem checkIndexes_all_true {α : Type} {bm : bitmap.Bitmap} {m : Nat} {d : α}
    (fns : List (α → Nat)) (hsz : bm.size = (m : Int))
    (hm : 0 < m) (hall : ∀ fn ∈ fns, bitmap.bitAt bm (fn d % m) = true) :
    checkIndexes bm m d fns = some true := by
  induction fns with
  | nil => rfl
  | cons fn rest ih =>
    have hidx0 : (0 : Int) ≤ ((fn d % m : Nat) : Int) := by positivity
    have hidxs : ((fn d % m : Nat) : Int) < bm.size := by
      rw [hsz]
      exact_mod_cast Nat.mod_lt _ hm
    unfold checkIndexes
    rw [bitmap.IsSet_eq_bitAt hidx0 hidxs, Int.toNat_natCast,
      hall fn (List.mem_cons_self fn rest)]
    simpa using ih (fun g hg => hall g (List.mem_cons_of_mem fn hg))

theorem Add_eq {bf : BloomFilter} (d : List Nat) (hinv : Inv bf) :
    ∃ bf', Add bf d = some bf' ∧ Inv bf' ∧ bf'.hashFunc = bf.hashFunc ∧
      bf'.size = bf.size ∧
      ∀ j, bitmap.bitAt bf'.bitmap j =
        (bitmap.bitAt bf.bitmap j || bf.hashFunc.any (fun fn => j == fn d % bf.size)) := by
  obtain ⟨hwf, hsz, hm⟩ := hinv
  obtain ⟨bm', hset, hwf', hsz', hbit⟩ := setIndexes_eq bf.hashFunc hwf hsz hm
  refine ⟨{ bf with bitmap := bm' }, ?_, ⟨hwf', by rw [hsz', hsz], hm⟩, rfl, rfl, hbit⟩
  unfold Add
  rw [hset]
  rfl

theorem AddAll_eq {bf : BloomFilter} (ds : List (List Nat)) (hinv : Inv bf) :
    ∃ bf', AddAll bf ds = some bf' ∧ Inv bf' ∧ bf'.hashFunc = bf.hashFunc ∧
      bf'.size = bf.size ∧
      ∀ j, bitmap.bitAt bf.bitmap j = true → bitmap.bitAt bf'.bitmap j = true := by
  induction ds generalizing bf with
  | nil => exact ⟨bf, rfl, hinv, rfl, rfl, fun j h => h⟩
  | cons d rest ih =>
    obtain ⟨bf1, hadd, hinv1, hhf1, hsz1, hbit1⟩ := Add_eq d hinv
    obtain ⟨bf2, hrec, hinv2, hhf2, hsz2, hbit2⟩ := ih hinv1
    refine ⟨bf2, ?_, hinv2, by rw [hhf2, hhf1], by rw [hsz2, hsz1], ?_⟩
    · unfold AddAll at hrec ⊢
      simp only [List.foldlM_cons, hadd]
      exact hrec
    · intro j hj
      exact hbit2 j (by rw [hbit1, hj, Bool.true_or])

end bloom

/-- C2: for every byte-keyed bloom filter (any derived parameters `m ≥ 1`,
`k`, covering every filter constructed from `n ≥ 1`, `p ∈ (0,1)`), once
`Add d` has happened — after any earlier adds `pre` — `Contains d` stays
true after any further sequence of adds `post`. -/
theorem claim_C2_bloom_no_false_negative (m k : Nat) (hm : 0 < m)
    (pre post : List (List Nat)) (d : List Nat) :
    ∃ bf0 bf1 bf2 bf3,
      bloom.New m k = some bf0 ∧
      bloom.AddAll bf0 pre = some bf1 ∧
      bloom.Add bf1 d = some bf2 ∧
      bloom.AddAll bf2 post = some bf3 ∧
      bloom.Contains bf3 d = some true := by
  obtain ⟨bm0, hnew, hwf0, hsz0, _⟩ := @bitmap.NewBitmap_eq (m : Int) (by positivity)
  have hbf0 : bloom.New m k =
      some { bitmap := bm0, hashFunc := bloom.createHashFunctions k, size := m } := by
    unfold bloom.New
    rw [hnew]
    rfl
  have hinv0 : bloom.Inv { bitmap := bm0, hashFunc := bloom.createHashFunctions k, size := m } :=
    ⟨hwf0, hsz0, hm⟩
  obtain ⟨bf1, hpre, hinv1, hhf1, hsz1, _⟩ := bloom.AddAll_eq pre hinv0
  obtain ⟨bf2, hadd, hinv2, hhf2, hsz2, hbit2⟩ := bloom.Add_eq d hinv1
  obtain ⟨bf3, hpost, hinv3, hhf3, hsz3, hmono3⟩ := bloom.AddAll_eq post hinv2
  refine ⟨_, bf1, bf2, bf3, hbf0, hpre, hadd, hpost, ?_⟩
  unfold bloom.Contains
  obtain ⟨hwf3, hszb3, hm3⟩ := hinv3
  apply bloom.checkIndexes_all_true _ hszb3 hm3
  intro fn hfn
  apply hmono3
  rw [hbit2]
  have hs31 : bf3.size = bf1.size := by rw [hsz3, hsz2]
  rw [hs31]
  rw [Bool.or_eq_true]
  right
  rw [List.any_eq_true]
  refine ⟨fn, ?_, by simp⟩
  rw [← hhf2, ← hhf3]
  exact hfn

/-- Witness for C2 at `m = 5`, `k = 2`, one earlier add, one later add. -/
theorem claim_C2_bloom_no_false_negative_witness :
    ∃ bf0 bf1 bf2 bf3,
      bloom.New 5 2 = some bf0 ∧
      bloom.AddAll bf0 [[7]] = some bf1 ∧
      bloom.Add bf1 [1, 2] = some bf2 ∧
      bloom.AddAll bf2 [[9, 9]] = some bf3 ∧
      bloom.Contains bf3 [1, 2] = some true :=
  claim_C2_bloom_no_false_negative 5 2 (by norm_num) [[7]] [[9, 9]] [1, 2]

namespace bloom

/-- The int64 base hashes: high 32 bits, low 32 bits, and the XOR mix
`uint32(uint64(d) >> 16) ^ uint32(d)`. -/
def int64Base : List (Int → Nat) :=
  [fun d => uint64Of d >>> 32,
   fun d => uint64Of d % 2 ^ 32,
   fun d => ((uint64Of d >>> 16) % 2 ^ 32) ^^^ (uint64Of d % 2 ^ 32)]

/-- `createInt64HashFunctions`: hash `i` is `base[i mod 3](d) * (i/3 + 1)`
in `uint32` arithmetic. -/
def createInt64HashFunctions (k : Nat) : List (Int → Nat) :=
  (List.range k).map (fun i =>
    fun d => ((int64Base.getD (i % 3) (fun _ => 0)) d * (i / 3 + 1)) % 2 ^ 32)

structure Int64BloomFilter where
  bitmap : bitmap.Bitmap
  hashFunc : List (Int → Nat)
  size : Nat

/-- `NewInt64Bloom`, taking the derived `(m, k)` pair directly (see `New`). -/
def NewInt64Bloom (m k : Nat) : Option Int64BloomFilter :=
  (bitmap.NewBitmap (m : Int)).map
    (fun bm => { bitmap := bm, hashFunc := createInt64HashFunctions k, size := m })

/-- `Int64BloomFilter.Add`. -/
def Int64Add (bf : Int64BloomFilter) (d : Int) : Option Int64BloomFilter :=
  (setIndexes bf.bitmap bf.size d bf.hashFunc).map (fun bm => { bf with bitmap := bm })

/-- `Int64BloomFilter.AddMany`.  The Go loop writes every hash of element
`i` into the same slot `indexes[i]`, so only the LAST hash function's
index survives per element (`indexes[i] = int(h)` inside the inner loop);
the slot starts at 0 from `make([]int, len(data))`.  The surviving
indexes then go to `bitmap.MSet`. -/
def Int64AddMany (bf : Int64BloomFilter) (ds : List Int) : Option Int64BloomFilter :=
  (bitmap.MSet bf.bitmap
      (ds.map (fun d => bf.hashFunc.foldl (fun _ fn => ((fn d % bf.size : Nat) : Int)) 0))).map
    (fun bm => { bf with bitmap := bm })

/-- `Int64BloomFilter.Contains`. -/
def Int64Contains (bf : Int64BloomFilter) (d : Int) : Option Bool :=
  checkIndexes bf.bitmap bf.size d bf.hashFunc

end bloom

/-- C1 fails on the code: for the filter `NewInt64Bloom(1, 0.5)`
(derived parameters `m = 2`, `k = 2`) and `ds = [1]`, `AddMany ds` sets
only the LAST hash-derived bit index of the element (bit 1), not all
`k` of them, so `Contains 1` is false afterwards — while `Add 1` sets
bits 0 and 1 and leaves `Contains 1` true.  (Independently, the real
`bitmap.MSet` re-acquires the already-held non-reentrant mutex and
deadlocks; the embedding keeps the loop's functional content.) -/
theorem claim_C1_int64_addMany_failing_input :
    ∃ bf bf1 bf2,
      bloom.NewInt64Bloom 2 2 = some bf ∧
      bloom.Int64AddMany bf [1] = some bf1 ∧
      bloom.Int64Contains bf1 1 = some false ∧
      bloom.Int64Add bf 1 = some bf2 ∧
      bloom.Int64Contains bf2 1 = some true :=
  ⟨_, _, _, rfl, rfl, rfl, rfl, rfl⟩

/-! ## concurrentmap/strmap/map.go

Shards are association lists; Go string keys are embedded as their byte
lists (`fnv32` hashes the bytes).  `getShard` indexes the shard slice by
`uint(fnv32(key)) % uint(defaultShardCount)` — the CONSTANT 32, not the
instance's length — and an out-of-range slice index panics (`none`).
Each operation takes one shard lock, so sequential state passing is
faithful. -/

namespace strmap

def defaultShardCount : Nat := 32

/-- The package's own FNV-1a: `hash ^= c; hash *= 16777619` per byte,
in `uint32` arithmetic. -/
def fnv32 (key : List Nat) : Nat :=
  key.foldl (fun h c => ((h ^^^ c) * 16777619) % 2 ^ 32) 2166136261

/-- One shard's `items` table, as an association list. -/
abbrev Shard (V : Type) := List (List Nat × V)

abbrev ConcurrentMap (V : Type) := List (Shard V)

structure Options where
  ShardCount : Int

/-- `NewWithOptions`: `opts.ShardCount` overrides the default only when
positive. -/
def NewWithOptions (V : Type) (opts : Options) : ConcurrentMap V :=
  let shardCount := if 0 < opts.ShardCount then opts.ShardCount.toNat else defaultShardCount
  List.replicate shardCount []

/-- Shard index actually computed by `getShard` (hard-wired to 32). -/
def shardIdx (key : List Nat) : Nat := fnv32 key % defaultShardCount

/-- `getShard`: `m[uint(fnv32(key)) % uint(defaultShardCount)]`, `none`
when the index is beyond the slice (Go: index-out-of-range panic). -/
def getShard {V : Type} (m : ConcurrentMap V) (key : List Nat) : Option (Shard V) :=
  m.get? (shardIdx key)

def itemsGet {V : Type} (s : Shard V) (key : List Nat) : Option V :=
  (s.find? (fun kv => kv.1 == key)).map (·.2)

def itemsSet {V : Type} (s : Shard V) (key : List Nat) (v : V) : Shard V :=
  if s.any (fun kv => kv.1 == key) then
    s.map (fun kv => if kv.1 == key then (key, v) else kv)
  else s ++ [(key, v)]

def itemsRemove {V : Type} (s : Shard V) (key : List Nat) : Shard V :=
  s.filter (fun kv => !(kv.1 == key))

/-- `Set`. -/
def Set {V : Type} (m : ConcurrentMap V) (key : List Nat) (v : V) :
    Option (ConcurrentMap V) :=
  (getShard m key).map (fun s => m.set (shardIdx key) (itemsSet s key v))

/-- `Get` returns `(value, ok)`; the inner `Option` is the `ok` pair. -/
def Get {V : Type} (m : ConcurrentMap V) (key : List Nat) : Option (Option V) :=
  (getShard m key).map (fun s => itemsGet s key)

/-- `Has`. -/
def Has {V : Type} (m : ConcurrentMap V) (key : List Nat) : Option Bool :=
  (getShard m key).map (fun s => s.any (fun kv => kv.1 == key))

/-- `Remove`. -/
def Remove {V : Type} (m : ConcurrentMap V) (key : List Nat) :
    Option (ConcurrentMap V) :=
  (getShard m key).map (fun s => m.set (shardIdx key) (itemsRemove s key))

/-- `GetOrSet`: existing value if present, else insert and return the new
value. -/
def GetOrSet {V : Type} (m : ConcurrentMap V) (key : List Nat) (v : V) :
    Option (V × ConcurrentMap V) :=
  (getShard m key).map (fun s =>
    match itemsGet s key with
    | some val => (val, m)
    | none => (v, m.set (shardIdx key) (itemsSet s key v)))

/-- `Count` loops `i` over `0..defaultShardCount-1` and reads `m[i]` —
again the constant 32, whatever the instance's length. -/
def Count {V : Type} (m : ConcurrentMap V) : Option Nat :=
  (List.range defaultShardCount).foldlM
    (fun acc i => (m.get? i).map (fun s => acc + s.length)) 0

theorem count_loop {V : Type} (m : ConcurrentMap V) :
    ∀ (n : Nat) (acc : Nat), n ≤ m.length →
      (List.range n).foldlM (fun acc i => (m.get? i).map (fun s => acc + s.length)) acc
        = some (acc + ((m.take n).map List.length).sum) := by
  intro n
  induction n with
  | zero => simp
  | succ n ih =>
    intro acc hn
    rw [List.range_succ, List.foldlM_append, ih acc (by omega)]
    have hlt : n < m.length := by omega
    simp only [List.foldlM_cons, List.foldlM_nil, Option.bind_eq_bind,
      Option.some_bind]
    rw [List.get?_eq_getElem?, List.getElem?_eq_getElem hlt]
    simp only [Option.map_some, Option.some_bind, List.take_succ,
      List.getElem?_eq_getElem hlt]
    simp
    rw [List.sum_take_succ (List.map List.length m) n (by simpa using hlt)]
    simp [Nat.add_assoc]

end strmap

/-- C4: `getShard` indexes by `fnv32(key) % 32` regardless of the actual
shard count, so with `0 < ShardCount < 32` every operation on a key whose
hash residue is `≥ ShardCount` — such keys exist, e.g. the one-byte key
`[0]` with residue 31 — panics with an out-of-range slice index (`none`);
with `ShardCount > 32` no key ever selects a shard at index `≥ 32`, and
`Count` sums only the first 32 shards. -/
theorem claim_C4_strmap_hardwired_shard_count {V : Type} (s : Nat)
    (m : strmap.ConcurrentMap V) (hlen : m.length = s) (v : V) :
    (∀ c : Int, 0 < c → (strmap.NewWithOptions V ⟨c⟩).length = c.toNat) ∧
    (s < 32 →
      (∀ key, s ≤ strmap.fnv32 key % 32 →
        strmap.Get m key = none ∧ strmap.Set m key v = none ∧
        strmap.Has m key = none ∧ strmap.Remove m key = none ∧
        strmap.GetOrSet m key v = none) ∧
      ∃ key, s ≤ strmap.fnv32 key % 32) ∧
    (∀ key, strmap.shardIdx key < 32) ∧
    (32 < s → strmap.Count m = some ((m.take 32).map List.length).sum) := by
  refine ⟨?_, ?_, ?_, ?_⟩
  · intro c hc
    unfold strmap.NewWithOptions
    rw [if_pos hc]
    simp
  · intro hs
    constructor
    · intro key hkey
      have hnone : strmap.getShard m key = none := by
        unfold strmap.getShard strmap.shardIdx strmap.defaultShardCount
        rw [List.get?_eq_getElem?, List.getElem?_eq_none]
        omega
      unfold strmap.Get strmap.Set strmap.Has strmap.Remove strmap.GetOrSet
      rw [hnone]
      simp
    · refine ⟨[0], ?_⟩
      have : strmap.fnv32 [0] % 32 = 31 := by decide
      omega
  · intro key
    unfold strmap.shardIdx strmap.defaultShardCount
    exact Nat.mod_lt _ (by norm_num)
  · intro hs
    unfold strmap.Count strmap.defaultShardCount
    rw [strmap.count_loop m 32 0 (by omega)]
    simp

/-- Witness for C4 on the one-shard map `NewWithOptions{ShardCount: 1}`. -/
theorem claim_C4_strmap_hardwired_shard_count_witness :
    (∀ c : Int, 0 < c → (strmap.NewWithOptions Nat ⟨c⟩).length = c.toNat) ∧
    (1 < 32 →
      (∀ key, 1 ≤ strmap.fnv32 key % 32 →
        strmap.Get (strmap.NewWithOptions Nat ⟨1⟩) key = none ∧
        strmap.Set (strmap.NewWithOptions Nat ⟨1⟩) key 0 = none ∧
        strmap.Has (strmap.NewWithOptions Nat ⟨1⟩) key = none ∧
        strmap.Remove (strmap.NewWithOptions Nat ⟨1⟩) key = none ∧
        strmap.GetOrSet (strmap.NewWithOptions Nat ⟨1⟩) key 0 = none) ∧
      ∃ key, 1 ≤ strmap.fnv32 key % 32) ∧
    (∀ key, strmap.shardIdx key < 32) ∧
    (32 < 1 → strmap.Count (strmap.NewWithOptions Nat ⟨1⟩) = some
      (((strmap.NewWithOptions Nat ⟨1⟩).take 32).map List.length).sum) :=
  claim_C4_strmap_hardwired_shard_count 1 (strmap.NewWithOptions Nat ⟨1⟩) rfl 0

/-! ## id codec package (id/codec.go)

`CombineZoneId`/`SplitId` work on Go `int64`; the embedding keeps values
as `Int` and goes through the two's-complement bit pattern (`uint64Of`,
`ofUInt64`) exactly where the Go code shifts, masks, or wraps.  Go
strings are embedded as their character lists. -/

namespace idc

def zoneBit : Nat := 8

def MaxZone : Nat := (1 <<< zoneBit) - 1

/-- Signed value of a 64-bit pattern (`int64(u)` in Go). -/
def ofUInt64 (u : Nat) : Int :=
  if u < 2 ^ 63 then (u : Int) else (u : Int) - 2 ^ 64

/-- `CombineZoneId`: `zoneId << zoneBit & int64(zone)` — the shift wraps
in 64 bits and `&` is the bitwise AND of the two patterns. -/
def CombineZoneId (zoneId : Int) (zone : Nat) : Int :=
  ofUInt64 (uint64Of (zoneId * 2 ^ zoneBit) &&& zone)

/-- `SplitId`: `(id >> zoneBit, uint8(id & MaxZone))` — arithmetic shift
and low-byte mask. -/
def SplitId (id : Int) : Int × Nat :=
  (id >>> zoneBit, uint64Of id &&& MaxZone)

theorem mul256_and_small {u zone : Nat} (hz : zone < 256) :
    (256 * u) &&& zone = 0 := by
  apply Nat.eq_of_testBit_eq
  intro i
  rw [Nat.testBit_and, Nat.zero_testBit]
  rcases Nat.lt_or_ge i 8 with hi | hi
  · have h1 : 256 * u = u <<< 8 := by
      rw [Nat.shiftLeft_eq]
      ring
    rw [h1, Nat.testBit_shiftLeft]
    have : ¬ (8 ≤ i) := by omega
    simp [this]
  · have h2 : zone.testBit i = false := by
      apply Nat.testBit_lt_two_pow
      calc zone < 256 := hz
        _ = 2 ^ 8 := by norm_num
        _ ≤ 2 ^ i := Nat.pow_le_pow_right (by norm_num) hi
    simp [h2]

theorem combine_pattern_zero {zoneId : Int} {zone : Nat} (hz : zone < 256) :
    uint64Of (zoneId * 2 ^ zoneBit) &&& zone = 0 := by
  have hP0 : 0 ≤ Int.emod (zoneId * 2 ^ zoneBit) (2 ^ 64) :=
    Int.emod_nonneg _ (by norm_num)
  have hdvd : (256 : Int) ∣ Int.emod (zoneId * 2 ^ zoneBit) (2 ^ 64) := by
    apply Int.dvd_of_emod_eq_zero
    have h1 : ((256 : Int)) ∣ (2 : Int) ^ 64 := by
      have : ((256 : Int)) = 2 ^ 8 := by norm_num
      rw [this]
      exact pow_dvd_pow 2 (by norm_num)
    have h2 := Int.emod_emod_of_dvd (zoneId * 2 ^ zoneBit) h1
    show (zoneId * 2 ^ zoneBit) % 2 ^ 64 % 256 = 0
    rw [h2]
    apply Int.emod_eq_zero_of_dvd
    exact ⟨zoneId, by unfold zoneBit; ring⟩
  obtain ⟨t, ht⟩ := hdvd
  have hu : uint64Of (zoneId * 2 ^ zoneBit) = 256 * t.toNat := by
    unfold uint64Of
    omega
  rw [hu]
  exact mul256_and_small hz

end idc

/-- C3: `CombineZoneId` uses a bitwise AND where an OR was presumably
intended, so it returns 0 for every `zoneId` and every `zone < 256`;
hence `SplitId (CombineZoneId zoneId zone) = (0, 0)`, and `SplitId` fails
to invert `CombineZoneId` whenever `zoneId ≠ 0` or `zone ≠ 0`. -/
theorem claim_C3_combine_zone_id_always_zero (zoneId : Int) (zone : Nat)
    (hz : zone < 256) :
    idc.CombineZoneId zoneId zone = 0 ∧
    idc.SplitId (idc.CombineZoneId zoneId zone) = (0, 0) ∧
    (¬(zoneId = 0 ∧ zone = 0) →
      idc.SplitId (idc.CombineZoneId zoneId zone) ≠ (zoneId, zone)) := by
  have hc : idc.CombineZoneId zoneId zone = 0 := by
    unfold idc.CombineZoneId
    rw [idc.combine_pattern_zero hz]
    decide
  have hsplit : idc.SplitId (idc.CombineZoneId zoneId zone) = (0, 0) := by
    rw [hc]
    decide
  refine ⟨hc, hsplit, ?_⟩
  intro hne heq
  rw [hsplit] at heq
  have h1 : (0 : Int) = zoneId := congrArg Prod.fst heq
  have h2 : (0 : Nat) = zone := congrArg Prod.snd heq
  exact hne ⟨h1.symm, h2.symm⟩

/-- Witness for C3 at `zoneId = 5`, `zone = 3`. -/
theorem claim_C3_combine_zone_id_always_zero_witness :
    idc.CombineZoneId 5 3 = 0 ∧
    idc.SplitId (idc.CombineZoneId 5 3) = (0, 0) ∧
    (¬((5 : Int) = 0 ∧ (3 : Nat) = 0) →
      idc.SplitId (idc.CombineZoneId 5 3) ≠ (5, 3)) :=
  claim_C3_combine_zone_id_always_zero 5 3 (by norm_num)

namespace idc

/-! `EncodeId`/`DecodeId` route negative ids through `strconv` decimal
formatting/parsing and non-negative ids through the external go-hashids
codec (salt "vulcan2020", minimum length 18).  Strings are embedded as
character lists. -/

/-- Digit characters to digit values, one parser step. -/
def charsToDigits (dv : Char → Option Nat) : List Char → Option (List Nat)
  | [] => some []
  | c :: cs => (dv c).bind (fun d => (charsToDigits dv cs).map (fun ds => d :: ds))

/-- Parse a non-empty big-endian digit string in base `b`. -/
def parseChars (dv : Char → Option Nat) (b : Nat) (cs : List Char) : Option Nat :=
  if cs.isEmpty then none
  else (charsToDigits dv cs).map (fun ds => Nat.ofDigits b ds.reverse)

/-- Render `n` in base `b`, big-endian, no leading zeros (`0` renders as
one zero digit). -/
def natToChars (dc : Nat → Char) (b n : Nat) : List Char :=
  if n = 0 then [dc 0] else (Nat.digits b n).reverse.map dc

def decChar (d : Nat) : Char := Char.ofNat (48 + d)

def decVal (c : Char) : Option Nat :=
  if 48 ≤ c.toNat ∧ c.toNat ≤ 57 then some (c.toNat - 48) else none

/-- `strconv.FormatInt(x, 10)`. -/
def FormatInt (x : Int) : List Char :=
  if x < 0 then '-' :: natToChars decChar 10 (-x).toNat
  else natToChars decChar 10 x.toNat

/-- `strconv.ParseInt(s, 10, 64)`: optional sign, decimal digits, 64-bit
range check. -/
def ParseInt64 (cs : List Char) : Option Int :=
  match cs with
  | [] => none
  | c :: rest =>
    if c = '-' then
      (parseChars decVal 10 rest).bind (fun n =>
        if (n : Int) ≤ 2 ^ 63 then some (-(n : Int)) else none)
    else if c = '+' then
      (parseChars decVal 10 rest).bind (fun n =>
        if (n : Int) < 2 ^ 63 then some ((n : Int)) else none)
    else
      (parseChars decVal 10 (c :: rest)).bind (fun n =>
        if (n : Int) < 2 ^ 63 then some ((n : Int)) else none)

/-- Base-61 digit characters: `0-9`, `a-z`, `A-Y` — alphanumeric, no `-`
and no `Z` (the padding character below). -/
def hidChar (d : Nat) : Char :=
  if d < 10 then Char.ofNat (48 + d)
  else if d < 36 then Char.ofNat (97 + d - 10)
  else Char.ofNat (65 + d - 36)

def hidVal (c : Char) : Option Nat :=
  if 48 ≤ c.toNat ∧ c.toNat ≤ 57 then some (c.toNat - 48)
  else if 97 ≤ c.toNat ∧ c.toNat ≤ 122 then some (c.toNat - 97 + 10)
  else if 65 ≤ c.toNat ∧ c.toNat ≤ 89 then some (c.toNat - 65 + 36)
  else none

/-- Modelled from the spec: the external go-hashids reversible codec
(`h.EncodeInt64`), which is not part of this repository.  The spec only
relies on it being a reversible integer-to-string obfuscation over an
alphanumeric alphabet with minimum output length 18, so it is modelled as
a base-61 rendering left-padded with `Z` to 18 characters.  Only the
singleton argument used by `EncodeId` is modelled. -/
def hashidEncodeList (ids : List Int) : Option (List Char) :=
  match ids with
  | [iv] =>
    if 0 ≤ iv then
      some (List.replicate (18 - (natToChars hidChar 61 iv.toNat).length) 'Z' ++
        natToChars hidChar 61 iv.toNat)
    else none
  | _ => none

/-- Modelled from the spec: the external go-hashids
`h.DecodeInt64WithError`, inverse of `hashidEncodeList`; `none` is the
decode error. -/
def hashidDecodeList (cs : List Char) : Option (List Int) :=
  (parseChars hidVal 61 (cs.dropWhile (fun c => c == 'Z'))).map (fun n => [(n : Int)])

/-- `EncodeId`: negative ids render as their decimal string; others go
through the codec. -/
def EncodeId (id : Int) : Option (List Char) :=
  if id < 0 then some (FormatInt id) else hashidEncodeList [id]

/-- `DecodeId`: a leading `-` routes to decimal parsing; otherwise decode
through the codec and fail on an empty id list. -/
def DecodeId (cs : List Char) : Option Int :=
  if cs.head? = some '-' then ParseInt64 cs
  else (hashidDecodeList cs).bind (fun ids =>
    match ids with
    | [] => none
    | v :: _ => some v)

theorem charsToDigits_map {dv : Char → Option Nat} {dc : Nat → Char} :
    ∀ (l : List Nat), (∀ d ∈ l, dv (dc d) = some d) →
      charsToDigits dv (l.map dc) = some l := by
  intro l
  induction l with
  | nil => intro _; rfl
  | cons d rest ih =>
    intro h
    have hd : dv (dc d) = some d := h d (List.mem_cons_self d rest)
    have ht := ih (fun e he => h e (List.mem_cons_of_mem d he))
    simp only [List.map_cons, charsToDigits, hd, ht, Option.map_some,
      Option.some_bind]
    rfl

theorem natToChars_ne_nil {dc : Nat → Char} {b n : Nat} :
    natToChars dc b n ≠ [] := by
  unfold natToChars
  rcases eq_or_ne n 0 with rfl | hn
  · simp
  · rw [if_neg hn]
    simp [Nat.digits_ne_nil_iff_ne_zero.mpr hn]

theorem natToChars_mem {dc : Nat → Char} {b n : Nat} (hb : 1 < b) :
    ∀ c ∈ natToChars dc b n, ∃ d, d < b ∧ c = dc d := by
  intro c hc
  unfold natToChars at hc
  rcases eq_or_ne n 0 with rfl | hn
  · simp at hc
    exact ⟨0, by omega, hc⟩
  · rw [if_neg hn] at hc
    obtain ⟨d, hd, rfl⟩ := List.mem_map.mp hc
    exact ⟨d, Nat.digits_lt_base hb (List.mem_reverse.mp hd), rfl⟩

theorem parse_natToChars {dv : Char → Option Nat} {dc : Nat → Char} {b n : Nat}
    (hb : 1 < b) (hdv : ∀ d, d < b → dv (dc d) = some d) :
    parseChars dv b (natToChars dc b n) = some n := by
  unfold parseChars natToChars
  rcases eq_or_ne n 0 with rfl | hn
  · simp only [if_pos rfl]
    have h0 : charsToDigits dv ([0].map dc) = some [0] :=
      charsToDigits_map [0] (by intro d hd; simp at hd; subst hd; exact hdv 0 (by omega))
    simp at h0
    simp [h0, Nat.ofDigits]
  · rw [if_neg hn]
    have hnil : (Nat.digits b n).reverse.map dc ≠ [] := by
      simp [Nat.digits_ne_nil_iff_ne_zero.mpr hn]
    rw [if_neg (by simpa [List.isEmpty_iff] using hnil)]
    have hdig : charsToDigits dv (((Nat.digits b n).reverse).map dc)
        = some (Nat.digits b n).reverse :=
      charsToDigits_map _ (fun d hd =>
        hdv d (Nat.digits_lt_base hb (List.mem_reverse.mp hd)))
    rw [hdig]
    simp [Nat.ofDigits_digits]

theorem decVal_decChar : ∀ d, d < 10 → decVal (decChar d) = some d := by decide

theorem hidVal_hidChar : ∀ d, d < 61 → hidVal (hidChar d) = some d := by decide

theorem hidChar_ne : ∀ d, d < 61 → hidChar d ≠ '-' ∧ hidChar d ≠ 'Z' := by decide

theorem dropWhile_pad (k : Nat) (s : List Char) :
    List.dropWhile (fun c => c == 'Z') (List.replicate k 'Z' ++ s) =
      List.dropWhile (fun c => c == 'Z') s := by
  induction k with
  | zero => rfl
  | succ k ih => simp [List.replicate_succ, List.dropWhile_cons, ih]

theorem dropWhile_id_of_no {s : List Char} (h : ∀ c ∈ s, ¬ c = 'Z') :
    List.dropWhile (fun c => c == 'Z') s = s := by
  cases s with
  | nil => rfl
  | cons c cs =>
    rw [List.dropWhile_cons]
    have : ¬ c = 'Z' := h c (List.mem_cons_self c cs)
    simp [this]

end idc

/-- C5: for every 64-bit `x` (including `MinInt64`), `DecodeId (EncodeId x)`
returns `x`: negative ids round-trip through their decimal rendering and
the leading-minus parse shortcut, non-negative ids through the reversible
codec. -/
theorem claim_C5_id_codec_round_trip (x : Int)
    (hlo : -(2 ^ 63) ≤ x) (hhi : x < 2 ^ 63) :
    ∃ s, idc.EncodeId x = some s ∧ idc.DecodeId s = some x := by
  rcases lt_or_le x 0 with hneg | hpos
  · refine ⟨'-' :: idc.natToChars idc.decChar 10 (-x).toNat, ?_, ?_⟩
    · unfold idc.EncodeId idc.FormatInt
      rw [if_pos hneg, if_pos hneg]
    · unfold idc.DecodeId
      rw [if_pos (by simp)]
      simp only [idc.ParseInt64]
      rw [if_pos trivial, idc.parse_natToChars (by norm_num) idc.decVal_decChar]
      simp only [Option.some_bind]
      rw [if_pos (by omega)]
      congr 1
      omega
  · have hb : (1 : Nat) < 61 := by norm_num
    have hsmem : ∀ c ∈ idc.natToChars idc.hidChar 61 x.toNat, ∃ d, d < 61 ∧ c = idc.hidChar d :=
      idc.natToChars_mem hb
    refine ⟨List.replicate (18 - (idc.natToChars idc.hidChar 61 x.toNat).length) 'Z' ++
      idc.natToChars idc.hidChar 61 x.toNat, ?_, ?_⟩
    · unfold idc.EncodeId
      rw [if_neg (by omega)]
      simp only [idc.hashidEncodeList]
      rw [if_pos hpos]
    · unfold idc.DecodeId
      have hmem : ∀ c ∈ List.replicate (18 - (idc.natToChars idc.hidChar 61 x.toNat).length) 'Z' ++
          idc.natToChars idc.hidChar 61 x.toNat, ¬ c = '-' := by
        intro c hc
        rcases List.mem_append.mp hc with hp | hs
        · rw [List.eq_of_mem_replicate hp]
          decide
        · obtain ⟨d, hd, rfl⟩ := hsmem c hs
          exact (idc.hidChar_ne d hd).1
      have hhd : ¬ ((List.replicate (18 - (idc.natToChars idc.hidChar 61 x.toNat).length) 'Z' ++
          idc.natToChars idc.hidChar 61 x.toNat).head? = some '-') := by
        intro h
        cases hl : List.replicate (18 - (idc.natToChars idc.hidChar 61 x.toNat).length) 'Z' ++
            idc.natToChars idc.hidChar 61 x.toNat with
        | nil => rw [hl] at h; simp at h
        | cons c cs =>
          rw [hl] at h
          simp at h
          apply hmem '-'
          · rw [hl, ← h]
            exact List.mem_cons_self c cs
          · rfl
      rw [if_neg hhd]
      unfold idc.hashidDecodeList
      rw [idc.dropWhile_pad, idc.dropWhile_id_of_no (by
        intro c hc
        obtain ⟨d, hd, rfl⟩ := hsmem c hc
        exact (idc.hidChar_ne d hd).2)]
      rw [idc.parse_natToChars hb idc.hidVal_hidChar]
      simp [Int.toNat_of_nonneg hpos]

/-- Witness for C5 at `x = MinInt64`. -/
theorem claim_C5_id_codec_round_trip_witness :
    ∃ s, idc.EncodeId (-(2 ^ 63)) = some s ∧ idc.DecodeId s = some (-(2 ^ 63)) :=
  claim_C5_id_codec_round_trip (-(2 ^ 63)) (by norm_num) (by norm_num)

/-! ## security/aes/aes.go

The AES block cipher itself (`crypto/aes`) is external; a `Block` is an
abstract block-size/encrypt/decrypt triple, and the round-trip theorem
assumes exactly what AES provides (block size 16, length-preserving,
decrypt inverts encrypt).  CBC chaining, PKCS#7 padding and unpadding
are embedded from the source.  Results distinguish a returned Go error
(`goError`, carrying the source's message) from a runtime panic
(`fault`). -/

inductive CResult (α : Type) where
  | ok : α → CResult α
  | goError : String → CResult α
  | fault : CResult α
deriving Repr

namespace aesc

structure Block where
  blockSize : Nat
  encB : List Nat → List Nat
  decB : List Nat → List Nat

def xorBytes (a b : List Nat) : List Nat := List.zipWith (fun x y => x ^^^ y) a b

/-- `cipher.NewCBCEncrypter(...).CryptBlocks`: per 16-byte block,
`c_i = E(p_i XOR c_(i-1))` with `c_0 = iv`.  (`bs = 0` cannot occur — an
AES block size is 16 — and is cut off only for termination.) -/
def cbcEncrypt (bs : Nat) (enc : List Nat → List Nat) (iv src : List Nat) :
    List Nat :=
  if h : src.isEmpty ∨ bs = 0 then []
  else
    let c := enc (xorBytes (src.take bs) iv)
    c ++ cbcEncrypt bs enc c (src.drop bs)
termination_by src.length
decreasing_by
  simp only [not_or, List.isEmpty_iff] at h
  have : src.length ≠ 0 := by
    intro hl
    exact h.1 (List.eq_nil_of_length_eq_zero hl)
  simp [List.length_drop]
  omega

/-- `cipher.NewCBCDecrypter(...).CryptBlocks`: `p_i = D(c_i) XOR c_(i-1)`. -/
def cbcDecrypt (bs : Nat) (dec : List Nat → List Nat) (iv src : List Nat) :
    List Nat :=
  if h : src.isEmpty ∨ bs = 0 then []
  else
    let c := src.take bs
    xorBytes (dec c) iv ++ cbcDecrypt bs dec c (src.drop bs)
termination_by src.length
decreasing_by
  simp only [not_or, List.isEmpty_iff] at h
  have : src.length ≠ 0 := by
    intro hl
    exact h.1 (List.eq_nil_of_length_eq_zero hl)
  simp [List.length_drop]
  omega

/-- `pkcs7Padding`: append `padding` copies of the byte `padding`, where
`padding = blockSize - len % blockSize`. -/
def pkcs7Padding (ciphertext : List Nat) (blockSize : Nat) : List Nat :=
  ciphertext ++ List.replicate (blockSize - ciphertext.length % blockSize)
    (blockSize - ciphertext.length % blockSize)

/-- `pkcs7UnPadding`: reads `origData[length-1]` (panic on empty input),
then errors when the padding byte is 0 or exceeds the length. -/
def pkcs7UnPadding (origData : List Nat) : CResult (List Nat) :=
  match origData.getLast? with
  | none => .fault
  | some last =>
    if last = 0 ∨ origData.length < last then
      .goError "[aes.pkcs7UnPadding] length error"
    else .ok (origData.take (origData.length - last))

/-- `Encrypt`: nil block, empty key, empty plaintext are returned errors;
`key[:blockSize]` (the IV) panics when the key is shorter than a block. -/
def Encrypt (key : List Nat) (block : Option Block) (org : List Nat) :
    CResult (List Nat) :=
  match block with
  | none => .goError "[aes.Encrypt] block is nil"
  | some b =>
    if key.length = 0 then .goError "[aes.Encrypt] key is empty"
    else if org.length = 0 then .goError "[aes.Encrypt] org is empty"
    else if key.length < b.blockSize then .fault
    else .ok (cbcEncrypt b.blockSize b.encB (key.take b.blockSize)
      (pkcs7Padding org b.blockSize))

/-- `Decrypt`: empty key is a returned error; a nil block, a key shorter
than a block, and a ciphertext that is not a whole number of blocks all
panic (`CryptBlocks`); then unpad. -/
def Decrypt (key : List Nat) (block : Option Block) (ser : List Nat) :
    CResult (List Nat) :=
  if key.length = 0 then .goError "[aes.Decrypt] key is empty"
  else match block with
  | none => .fault
  | some b =>
    if key.length < b.blockSize then .fault
    else if ser.length % b.blockSize ≠ 0 then .fault
    else pkcs7UnPadding (cbcDecrypt b.blockSize b.decB (key.take b.blockSize) ser)

end aesc

namespace aesc

theorem xorBytes_cancel : ∀ (a b : List Nat), a.length = b.length →
    xorBytes (xorBytes a b) b = a := by
  intro a
  induction a with
  | nil => intro b _; rfl
  | cons x xs ih =>
    intro b hb
    cases b with
    | nil => simp at hb
    | cons y ys =>
      have hxy : xs.length = ys.length := by
        simp at hb
        exact hb
      simp only [xorBytes, List.zipWith_cons_cons]
      rw [Nat.xor_cancel_right]
      have hrec := ih ys hxy
      simp only [xorBytes] at hrec
      rw [hrec]

theorem cbcEncrypt_spec (bs : Nat) (enc dec : List Nat → List Nat) (hbs : 0 < bs)
    (hencLen : ∀ blk, blk.length = bs → (enc blk).length = bs)
    (hinv : ∀ blk, blk.length = bs → dec (enc blk) = blk) :
    ∀ n, ∀ src iv : List Nat, src.length = n → iv.length = bs → n % bs = 0 →
      (cbcEncrypt bs enc iv src).length = n ∧
      cbcDecrypt bs dec iv (cbcEncrypt bs enc iv src) = src := by
  intro n
  induction n using Nat.strong_induction_on with
  | _ n ih =>
    intro src iv hlen hiv hmod
    rcases eq_or_ne src [] with rfl | hne
    · have hn : n = 0 := by simpa using hlen.symm
      subst hn
      rw [cbcEncrypt]
      simp [cbcDecrypt]
    · have hn0 : n ≠ 0 := by
        intro h
        subst h
        exact hne (List.eq_nil_of_length_eq_zero hlen)
      have hdvd : bs ∣ n := Nat.dvd_of_mod_eq_zero hmod
      have hbsle : bs ≤ n := Nat.le_of_dvd (Nat.pos_of_ne_zero hn0) hdvd
      have hblk : (src.take bs).length = bs := by
        simp [List.length_take]
        omega
      have hxor : (xorBytes (src.take bs) iv).length = bs := by
        simp [xorBytes, List.length_zipWith, hblk, hiv]
      have hclen : (enc (xorBytes (src.take bs) iv)).length = bs := hencLen _ hxor
      have hrest : (src.drop bs).length = n - bs := by simp [hlen]
      have hrmod : (n - bs) % bs = 0 := by
        obtain ⟨q, hq⟩ := Nat.dvd_sub' hdvd dvd_rfl
        rw [hq, Nat.mul_mod_right]
      have hcond : ¬ (src.isEmpty = true ∨ bs = 0) := by
        simp [List.isEmpty_iff, hne]
        omega
      have henc : cbcEncrypt bs enc iv src =
          enc (xorBytes (src.take bs) iv) ++
            cbcEncrypt bs enc (enc (xorBytes (src.take bs) iv)) (src.drop bs) := by
        rw [cbcEncrypt, dif_neg hcond]
      obtain ⟨ihlen, ihdec⟩ := ih (n - bs) (by omega) (src.drop bs)
        (enc (xorBytes (src.take bs) iv)) hrest hclen hrmod
      have hclen0 : enc (xorBytes (src.take bs) iv) ≠ [] := by
        intro h
        rw [h] at hclen
        simp at hclen
        omega
      constructor
      · rw [henc]
        simp [ihlen, hclen]
        omega
      · rw [henc, cbcDecrypt]
        rw [dif_neg (by simp [List.isEmpty_iff, hclen0]; omega)]
        have htake : (enc (xorBytes (src.take bs) iv) ++
            cbcEncrypt bs enc (enc (xorBytes (src.take bs) iv)) (src.drop bs)).take bs =
            enc (xorBytes (src.take bs) iv) := List.take_left' hclen
        have hdrop : (enc (xorBytes (src.take bs) iv) ++
            cbcEncrypt bs enc (enc (xorBytes (src.take bs) iv)) (src.drop bs)).drop bs =
            cbcEncrypt bs enc (enc (xorBytes (src.take bs) iv)) (src.drop bs) :=
          List.drop_left' hclen
        simp only [htake, hdrop]
        rw [hinv _ hxor, ihdec, xorBytes_cancel _ _ (by rw [hblk, hiv])]
        exact List.take_append_drop bs src

theorem pkcs7Padding_length (org : List Nat) (bs : Nat) (hbs : 0 < bs) :
    (pkcs7Padding org bs).length = org.length + (bs - org.length % bs) ∧
    (pkcs7Padding org bs).length % bs = 0 := by
  have hq := Nat.div_add_mod org.length bs
  have hr : org.length % bs < bs := Nat.mod_lt _ hbs
  have hlen : (pkcs7Padding org bs).length = org.length + (bs - org.length % bs) := by
    simp [pkcs7Padding]
  refine ⟨hlen, ?_⟩
  rw [hlen]
  have h1 : org.length + (bs - org.length % bs) = bs * (org.length / bs) + bs := by
    omega
  rw [h1, show bs * (org.length / bs) + bs = bs * (org.length / bs + 1) by ring,
    Nat.mul_mod_right]

theorem pkcs7_roundtrip (org : List Nat) (bs : Nat) (hbs : 0 < bs) :
    pkcs7UnPadding (pkcs7Padding org bs) = .ok org := by
  have hr : org.length % bs < bs := Nat.mod_lt _ hbs
  obtain ⟨q, hq⟩ : ∃ q, bs - org.length % bs = q + 1 :=
    ⟨bs - org.length % bs - 1, by omega⟩
  unfold pkcs7Padding pkcs7UnPadding
  rw [hq, List.replicate_succ', ← List.append_assoc]
  simp only [List.getLast?_concat]
  have hlen : ((org ++ List.replicate q (q + 1)) ++ [q + 1]).length
      = org.length + (q + 1) := by simp
  rw [hlen, if_neg (by omega)]
  have htk : org.length + (q + 1) - (q + 1) = org.length := by omega
  rw [htk]
  congr 1
  rw [List.append_assoc]
  exact List.take_left' rfl

end aesc

/-- C6: with a 16/24/32-byte key and any block cipher with AES's contract
(block size 16, length-preserving, decrypt inverts encrypt), `Decrypt`
inverts `Encrypt` on every non-empty plaintext (PKCS#7 pad + CBC with
IV = first 16 key bytes), and `Encrypt` of an empty plaintext is the
InvalidInput error. -/
theorem claim_C6_aes_cbc_round_trip (key org : List Nat) (B : aesc.Block)
    (hkey : key.length = 16 ∨ key.length = 24 ∨ key.length = 32)
    (horg : org ≠ [])
    (hbs : B.blockSize = 16)
    (hencLen : ∀ blk, blk.length = 16 → (B.encB blk).length = 16)
    (hinv : ∀ blk, blk.length = 16 → B.decB (B.encB blk) = blk) :
    (∃ ser, aesc.Encrypt key (some B) org = .ok ser ∧
      aesc.Decrypt key (some B) ser = .ok org) ∧
    aesc.Encrypt key (some B) [] = .goError "[aes.Encrypt] org is empty" := by
  have hk16 : 16 ≤ key.length := by rcases hkey with h | h | h <;> omega
  have hkne : ¬ (key.length = 0) := by omega
  have hbs0 : 0 < B.blockSize := by omega
  have hiv : (key.take B.blockSize).length = B.blockSize := by
    simp [List.length_take]
    omega
  obtain ⟨hplen, hpmod⟩ := aesc.pkcs7Padding_length org B.blockSize hbs0
  obtain ⟨helen, hdec⟩ := aesc.cbcEncrypt_spec B.blockSize B.encB B.decB hbs0
    (by intro blk hblk; rw [hbs] at hblk ⊢; exact hencLen blk hblk)
    (by intro blk hblk; rw [hbs] at hblk; exact hinv blk hblk)
    (aesc.pkcs7Padding org B.blockSize).length (aesc.pkcs7Padding org B.blockSize)
    (key.take B.blockSize) rfl hiv hpmod
  constructor
  · refine ⟨aesc.cbcEncrypt B.blockSize B.encB (key.take B.blockSize)
      (aesc.pkcs7Padding org B.blockSize), ?_, ?_⟩
    · simp only [aesc.Encrypt]
      rw [if_neg hkne, if_neg (by simpa using horg), if_neg (by omega)]
    · simp only [aesc.Decrypt]
      rw [if_neg hkne, if_neg (by omega), if_neg (by rw [helen]; simpa using hpmod),
        hdec]
      exact aesc.pkcs7_roundtrip org B.blockSize hbs0
  · simp only [aesc.Encrypt]
    rw [if_neg hkne]
    simp

/-- Witness for C6 with the identity block cipher, a 16-byte key and a
one-byte plaintext. -/
theorem claim_C6_aes_cbc_round_trip_witness :
    (∃ ser, aesc.Encrypt (List.replicate 16 0) (some ⟨16, fun b => b, fun b => b⟩) [1]
        = .ok ser ∧
      aesc.Decrypt (List.replicate 16 0) (some ⟨16, fun b => b, fun b => b⟩) ser
        = .ok [1]) ∧
    aesc.Encrypt (List.replicate 16 0) (some ⟨16, fun b => b, fun b => b⟩) []
      = .goError "[aes.Encrypt] org is empty" :=
  claim_C6_aes_cbc_round_trip (List.replicate 16 0) [1] ⟨16, fun b => b, fun b => b⟩
    (Or.inl (by simp)) (by simp) rfl (fun _ h => h) (fun _ _ => rfl)

/-- C7: `Decrypt` is not total on its ciphertext: an empty ciphertext
panics in `pkcs7UnPadding` (index `length-1` of an empty slice), a
ciphertext whose length is not a multiple of 16 panics in `CryptBlocks`,
and the only returned (non-panic) decrypt-side errors besides the empty
key are the padding-value checks. -/
theorem claim_C7_aes_decrypt_partial (key ser : List Nat) (B : aesc.Block)
    (hkey : key ≠ []) (hbs : B.blockSize = 16) :
    aesc.Decrypt key (some B) [] = .fault ∧
    (ser.length % 16 ≠ 0 → aesc.Decrypt key (some B) ser = .fault) ∧
    (∀ ser' msg, aesc.Decrypt key (some B) ser' = .goError msg →
      msg = "[aes.pkcs7UnPadding] length error") := by
  have hkne : ¬ (key.length = 0) := by
    simpa [List.length_eq_zero] using hkey
  refine ⟨?_, ?_, ?_⟩
  · simp only [aesc.Decrypt]
    rw [if_neg hkne]
    by_cases hklt : key.length < B.blockSize
    · rw [if_pos hklt]
    · rw [if_neg hklt, if_neg (by simp)]
      have hnil : aesc.cbcDecrypt B.blockSize B.decB (key.take B.blockSize) [] = [] := by
        rw [aesc.cbcDecrypt]
        simp
      rw [hnil]
      rfl
  · intro hmod
    simp only [aesc.Decrypt]
    rw [if_neg hkne]
    by_cases hklt : key.length < B.blockSize
    · rw [if_pos hklt]
    · rw [if_neg hklt, if_pos (by rw [hbs]; exact hmod)]
  · intro ser' msg h
    simp only [aesc.Decrypt] at h
    rw [if_neg hkne] at h
    split at h
    · exact CResult.noConfusion h
    · split at h
      · exact CResult.noConfusion h
      · unfold aesc.pkcs7UnPadding at h
        split at h
        · exact CResult.noConfusion h
        · split at h
          · injection h with h1
            exact h1.symm
          · exact CResult.noConfusion h

/-- Witness for C7 with the identity block cipher, key `[0]` and the
one-byte ciphertext `[1]`. -/
theorem claim_C7_aes_decrypt_partial_witness :
    aesc.Decrypt [0] (some ⟨16, fun b => b, fun b => b⟩) [] = .fault ∧
    (([1] : List Nat).length % 16 ≠ 0 →
      aesc.Decrypt [0] (some ⟨16, fun b => b, fun b => b⟩) [1] = .fault) ∧
    (∀ ser' msg, aesc.Decrypt [0] (some ⟨16, fun b => b, fun b => b⟩) ser'
        = .goError msg → msg = "[aes.pkcs7UnPadding] length error") :=
  claim_C7_aes_decrypt_partial [0] [1] ⟨16, fun b => b, fun b => b⟩ (by simp) rfl

/-! ## consistenthash/int64_ketama.go

The 64-bit hash (`murmur3.New64`, a vendored library) is a parameter
`hfn`; `Sum64` values are reduced `% 2^64` to reflect their `uint64`
type.  `sort.Sort` sorts the virtual nodes by hash (ties in an
unspecified order — the embedding uses insertion sort, one valid
outcome), and `sort.Search` on a hash-sorted slice with the monotone
predicate `hash >= target` returns the least satisfying index, which is
`findIdx`.  The lookup key is used as its own position
(`targetHash = uint64(key)`), with no hashing. -/

namespace ch

structure RingNode where
  nodeName : String
  key : Int
  hash : Nat

structure Int64HashRing where
  virtualSpots : Nat
  nodes : List RingNode

def DefaultVirtualSpots : Nat := 160

/-- `NewInt64Ring`: non-positive `virtualSpots` falls back to 160. -/
def NewInt64Ring (virtualSpots : Int) : Int64HashRing :=
  { virtualSpots := if virtualSpots ≤ 0 then DefaultVirtualSpots else virtualSpots.toNat,
    nodes := [] }

/-- `strconv.Itoa`. -/
def itoa (n : Nat) : String := String.mk (idc.natToChars idc.decChar 10 n)

/-- `AddNode`: hash `"name:i"` for each virtual spot, append, re-sort the
whole ring by hash. -/
def AddNode (hfn : String → Nat) (h : Int64HashRing) (nodeName : String) :
    Int64HashRing :=
  let newNodes := (List.range h.virtualSpots).map (fun i =>
    let hash64 := hfn (nodeName ++ ":" ++ itoa i) % 2 ^ 64
    { nodeName := nodeName, key := idc.ofUInt64 hash64, hash := hash64 : RingNode })
  { h with nodes := List.insertionSort (fun a b => a.hash ≤ b.hash) (h.nodes ++ newNodes) }

/-- `RemoveNode`: keep every virtual node of a different owner. -/
def RemoveNode (h : Int64HashRing) (nodeName : String) : Int64HashRing :=
  { h with nodes := h.nodes.filter (fun n => !(n.nodeName == nodeName)) }

/-- `GetNode`: empty ring is not-found; otherwise the first (least) index
whose hash is `≥ uint64(key)`, wrapping to index 0. -/
def GetNode (h : Int64HashRing) (key : Int) : String × Bool :=
  if h.nodes.length = 0 then ("", false)
  else
    let targetHash := uint64Of key
    let idx := h.nodes.findIdx (fun n => decide (targetHash ≤ n.hash))
    let idx' := if idx = h.nodes.length then 0 else idx
    ((h.nodes.getD idx' ⟨"", 0, 0⟩).nodeName, true)

/-- Ring states reachable from the constructor by `AddNode`/`RemoveNode`
(one fixed hash function, as the Go ring's pooled hasher). -/
inductive Reachable (hfn : String → Nat) : Int64HashRing → Prop where
  | new : ∀ vs : Int, Reachable hfn (NewInt64Ring vs)
  | add : ∀ r name, Reachable hfn r → Reachable hfn (AddNode hfn r name)
  | remove : ∀ r name, Reachable hfn r → Reachable hfn (RemoveNode r name)

instance : DecidableRel (fun (a b : RingNode) => a.hash ≤ b.hash) :=
  fun a b => Nat.decLe a.hash b.hash

instance : IsTotal RingNode (fun a b => a.hash ≤ b.hash) :=
  ⟨fun a b => Nat.le_total a.hash b.hash⟩

instance : IsTrans RingNode (fun a b => a.hash ≤ b.hash) :=
  ⟨fun _ _ _ hab hbc => Nat.le_trans hab hbc⟩

theorem reachable_sorted {hfn : String → Nat} {r : Int64HashRing}
    (hr : Reachable hfn r) : r.nodes.Sorted (fun a b => a.hash ≤ b.hash) := by
  induction hr with
  | new vs => exact List.sorted_nil
  | add r name _ _ => exact List.sorted_insertionSort _ _
  | remove r name _ ih => exact List.Pairwise.filter _ ih

theorem findIdx_prop {α : Type} (p : α → Bool) (d : α) :
    ∀ l : List α,
      (∀ j, j < l.findIdx p → p (l.getD j d) = false) ∧
      (l.findIdx p < l.length → p (l.getD (l.findIdx p) d) = true) ∧
      l.findIdx p ≤ l.length ∧
      (l.findIdx p = l.length → ∀ a ∈ l, p a = false) := by
  intro l
  induction l with
  | nil => exact ⟨fun j hj => by simp at hj, fun h => by simp at h, by simp, by simp⟩
  | cons x xs ih =>
    obtain ⟨ih1, ih2, ih3, ih4⟩ := ih
    rw [List.findIdx_cons]
    cases hx : p x with
    | true =>
      refine ⟨fun j hj => by simp at hj, fun _ => by simpa using hx, by simp, ?_⟩
      intro h
      simp at h
    | false =>
      simp only [cond_false]
      refine ⟨?_, ?_, by simp only [List.length_cons]; omega, ?_⟩
      · intro j hj
        cases j with
        | zero => simpa using hx
        | succ j' =>
          rw [List.getD_cons_succ]
          exact ih1 j' (by omega)
      · intro h
        rw [List.getD_cons_succ]
        exact ih2 (by simp only [List.length_cons] at h; omega)
      · intro h a ha
        rcases List.mem_cons.mp ha with rfl | ha'
        · exact hx
        · exact ih4 (by simp only [List.length_cons] at h; omega) a ha'

end ch

/-- C8: on every reachable ring state the virtual-node list is sorted by
hash; `GetNode` on an empty ring is `("", false)`, otherwise it returns
the owner of a virtual node whose hash is the least one `≥ uint64(key)`,
or — when no virtual node's hash qualifies — of a virtual node with the
overall least hash (wrap-around). -/
theorem claim_C8_ring_get_node (hfn : String → Nat) (r : ch.Int64HashRing)
    (hr : ch.Reachable hfn r) (key : Int) :
    (r.nodes.length = 0 → ch.GetNode r key = ("", false)) ∧
    (r.nodes.length ≠ 0 → ∃ n ∈ r.nodes,
      ch.GetNode r key = (n.nodeName, true) ∧
      ((∃ m ∈ r.nodes, uint64Of key ≤ m.hash) →
        uint64Of key ≤ n.hash ∧
        ∀ m ∈ r.nodes, uint64Of key ≤ m.hash → n.hash ≤ m.hash) ∧
      ((∀ m ∈ r.nodes, m.hash < uint64Of key) →
        ∀ m ∈ r.nodes, n.hash ≤ m.hash)) := by
  have hpair := List.pairwise_iff_getElem.mp (ch.reachable_sorted hr)
  constructor
  · intro h0
    unfold ch.GetNode
    rw [if_pos h0]
  · intro hne
    obtain ⟨hf1, hf2, hf3, hf4⟩ :=
      ch.findIdx_prop (fun n => decide (uint64Of key ≤ n.hash)) ⟨"", 0, 0⟩ r.nodes
    have hget : ch.GetNode r key =
        ((r.nodes.getD
          (if r.nodes.findIdx (fun n => decide (uint64Of key ≤ n.hash)) = r.nodes.length
            then 0
            else r.nodes.findIdx (fun n => decide (uint64Of key ≤ n.hash)))
          ⟨"", 0, 0⟩).nodeName, true) := by
      simp only [ch.GetNode]
      rw [if_neg hne]
    by_cases hall : r.nodes.findIdx (fun n => decide (uint64Of key ≤ n.hash))
        = r.nodes.length
    · have h0lt : 0 < r.nodes.length := by omega
      refine ⟨r.nodes.getD 0 ⟨"", 0, 0⟩, ?_, ?_, ?_, ?_⟩
      · rw [List.getD_eq_getElem _ _ h0lt]
        exact List.mem_iff_getElem.mpr ⟨0, h0lt, rfl⟩
      · rw [hget, if_pos hall]
      · intro ⟨m, hm, hmt⟩
        have := hf4 hall m hm
        simp only [decide_eq_false_iff_not] at this
        exact absurd hmt this
      · intro _ m hm
        obtain ⟨j, hj, rfl⟩ := List.mem_iff_getElem.mp hm
        rw [List.getD_eq_getElem _ _ h0lt]
        rcases Nat.eq_zero_or_pos j with rfl | hjpos
        · exact Nat.le_refl _
        · exact hpair 0 j h0lt hj hjpos
    · have hlt : r.nodes.findIdx (fun n => decide (uint64Of key ≤ n.hash))
          < r.nodes.length := Nat.lt_of_le_of_ne hf3 hall
      have hq : uint64Of key ≤
          (r.nodes.getD (r.nodes.findIdx (fun n => decide (uint64Of key ≤ n.hash)))
            ⟨"", 0, 0⟩).hash := by
        have := hf2 hlt
        simpa using this
      refine ⟨r.nodes.getD (r.nodes.findIdx (fun n => decide (uint64Of key ≤ n.hash)))
        ⟨"", 0, 0⟩, ?_, ?_, ?_, ?_⟩
      · rw [List.getD_eq_getElem _ _ hlt]
        exact List.mem_iff_getElem.mpr ⟨_, hlt, rfl⟩
      · rw [hget, if_neg hall]
      · intro _
        refine ⟨hq, ?_⟩
        intro m hm hmt
        obtain ⟨j, hj, rfl⟩ := List.mem_iff_getElem.mp hm
        rcases Nat.lt_or_ge j (r.nodes.findIdx (fun n => decide (uint64Of key ≤ n.hash)))
          with hjlt | hjge
        · have := hf1 j hjlt
          rw [List.getD_eq_getElem _ _ (by omega)] at this
          simp only [decide_eq_false_iff_not] at this
          exact absurd hmt this
        · rw [List.getD_eq_getElem _ _ hlt]
          rcases Nat.eq_or_lt_of_le hjge with rfl | hjgt
          · exact Nat.le_refl _
          · exact hpair _ j hlt hj hjgt
      · intro hprem
        exfalso
        have hmem : r.nodes.getD (r.nodes.findIdx (fun n => decide (uint64Of key ≤ n.hash)))
            ⟨"", 0, 0⟩ ∈ r.nodes := by
          rw [List.getD_eq_getElem _ _ hlt]
          exact List.mem_iff_getElem.mpr ⟨_, hlt, rfl⟩
        exact absurd hq (Nat.not_le.mpr (hprem _ hmem))

/-- Witness for C8 on the one-spot ring with one node added. -/
theorem claim_C8_ring_get_node_witness :
    ((ch.AddNode (fun s => s.length) (ch.NewInt64Ring 1) "a").nodes.length = 0 →
      ch.GetNode (ch.AddNode (fun s => s.length) (ch.NewInt64Ring 1) "a") 0
        = ("", false)) ∧
    ((ch.AddNode (fun s => s.length) (ch.NewInt64Ring 1) "a").nodes.length ≠ 0 →
      ∃ n ∈ (ch.AddNode (fun s => s.length) (ch.NewInt64Ring 1) "a").nodes,
        ch.GetNode (ch.AddNode (fun s => s.length) (ch.NewInt64Ring 1) "a") 0
          = (n.nodeName, true) ∧
        ((∃ m ∈ (ch.AddNode (fun s => s.length) (ch.NewInt64Ring 1) "a").nodes,
            uint64Of 0 ≤ m.hash) →
          uint64Of 0 ≤ n.hash ∧
          ∀ m ∈ (ch.AddNode (fun s => s.length) (ch.NewInt64Ring 1) "a").nodes,
            uint64Of 0 ≤ m.hash → n.hash ≤ m.hash) ∧
        ((∀ m ∈ (ch.AddNode (fun s => s.length) (ch.NewInt64Ring 1) "a").nodes,
            m.hash < uint64Of 0) →
          ∀ m ∈ (ch.AddNode (fun s => s.length) (ch.NewInt64Ring 1) "a").nodes,
            n.hash ≤ m.hash)) :=
  claim_C8_ring_get_node (fun s => s.length) _
    (ch.Reachable.add (ch.NewInt64Ring 1) "a" (ch.Reachable.new 1)) 0

/-! ## sync/stopper.go

Channels only ever transition from open to closed, so each channel is a
`closed` flag; the atomic booleans are flags.  Both `TriggerStop` and
`DoStop` re-check their flag under a dedicated mutex, so the sequential
embedding of a call is: no-op if the flag is set, otherwise perform the
one-shot effects.  `DoStop` additionally returns the function it invoked
(`none` when it did not invoke one); the stop-timeout only bounds the
wait on `f` and never prevents the stopped channel from closing. -/

namespace stopper

structure Stopper where
  stopTriggerClosed : Bool
  stopTriggered : Bool
  stoppingClosed : Bool
  isStopping : Bool
  stoppedClosed : Bool
deriving DecidableEq, Repr

def NewStopper : Stopper :=
  { stopTriggerClosed := false, stopTriggered := false,
    stoppingClosed := false, isStopping := false, stoppedClosed := false }

/-- `TriggerStop`. -/
def TriggerStop (s : Stopper) : Stopper :=
  if s.stopTriggered then s
  else { s with stopTriggerClosed := true, stopTriggered := true }

/-- `DoStop`. -/
def DoStop {γ : Type} (s : Stopper) (f : γ) : Stopper × Option γ :=
  if s.isStopping then (s, none)
  else ({ s with stoppingClosed := true, isStopping := true, stoppedClosed := true },
    some f)

end stopper

/-- C9: the first `TriggerStop` closes the trigger channel and sets the
triggered flag and any later call is a no-op; the first `DoStop` closes
the stopping channel, invokes its function, and closes the stopped
channel, and any later `DoStop` (with any function) performs none of
these effects and does not invoke its function. -/
theorem claim_C9_stopper_one_shot {γ : Type} (s : stopper.Stopper) (f g : γ) :
    ((stopper.TriggerStop stopper.NewStopper).stopTriggerClosed = true ∧
     (stopper.TriggerStop stopper.NewStopper).stopTriggered = true) ∧
    (s.stopTriggered = true → stopper.TriggerStop s = s) ∧
    ((stopper.TriggerStop s).stopTriggered = true) ∧
    (stopper.TriggerStop (stopper.TriggerStop s) = stopper.TriggerStop s) ∧
    ((stopper.DoStop stopper.NewStopper f).1.stoppingClosed = true ∧
     (stopper.DoStop stopper.NewStopper f).1.isStopping = true ∧
     (stopper.DoStop stopper.NewStopper f).1.stoppedClosed = true ∧
     (stopper.DoStop stopper.NewStopper f).2 = some f) ∧
    (s.isStopping = true → stopper.DoStop s g = (s, none)) ∧
    ((stopper.DoStop s f).1.isStopping = true) ∧
    (stopper.DoStop (stopper.DoStop s f).1 g = ((stopper.DoStop s f).1, none)) := by
  have htrig : ∀ t : stopper.Stopper, (stopper.TriggerStop t).stopTriggered = true := by
    intro t
    unfold stopper.TriggerStop
    split
    · assumption
    · rfl
  have hstop : ∀ t : stopper.Stopper, (stopper.DoStop t f).1.isStopping = true := by
    intro t
    unfold stopper.DoStop
    split
    · assumption
    · rfl
  have hnoopT : ∀ t : stopper.Stopper, t.stopTriggered = true →
      stopper.TriggerStop t = t := by
    intro t h
    unfold stopper.TriggerStop
    rw [if_pos h]
  have hnoopD : ∀ (t : stopper.Stopper), t.isStopping = true →
      ∀ x : γ, stopper.DoStop t x = (t, none) := by
    intro t h x
    unfold stopper.DoStop
    rw [if_pos h]
  exact ⟨⟨rfl, rfl⟩, hnoopT s, htrig s, hnoopT _ (htrig s),
    ⟨rfl, rfl, rfl, rfl⟩, fun h => hnoopD s h g, hstop s,
    hnoopD _ (hstop s) g⟩

/-- Witness for C9 at the fresh stopper with two distinct functions. -/
theorem claim_C9_stopper_one_shot_witness :
    ((stopper.TriggerStop stopper.NewStopper).stopTriggerClosed = true ∧
     (stopper.TriggerStop stopper.NewStopper).stopTriggered = true) ∧
    (stopper.NewStopper.stopTriggered = true →
      stopper.TriggerStop stopper.NewStopper = stopper.NewStopper) ∧
    ((stopper.TriggerStop stopper.NewStopper).stopTriggered = true) ∧
    (stopper.TriggerStop (stopper.TriggerStop stopper.NewStopper)
      = stopper.TriggerStop stopper.NewStopper) ∧
    ((stopper.DoStop stopper.NewStopper (0 : Nat)).1.stoppingClosed = true ∧
     (stopper.DoStop stopper.NewStopper (0 : Nat)).1.isStopping = true ∧
     (stopper.DoStop stopper.NewStopper (0 : Nat)).1.stoppedClosed = true ∧
     (stopper.DoStop stopper.NewStopper (0 : Nat)).2 = some 0) ∧
    (stopper.NewStopper.isStopping = true →
      stopper.DoStop stopper.NewStopper (1 : Nat) = (stopper.NewStopper, none)) ∧
    ((stopper.DoStop stopper.NewStopper (0 : Nat)).1.isStopping = true) ∧
    (stopper.DoStop (stopper.DoStop stopper.NewStopper (0 : Nat)).1 (1 : Nat)
      = ((stopper.DoStop stopper.NewStopper (0 : Nat)).1, none)) :=
  claim_C9_stopper_one_shot stopper.NewStopper 0 1
